import Mathlib

/-!
# Verification of the webppl compiler driver (src/main.js, src/inference/optimize.js)

This file gives a shallow embedding, in Lean, of the driver code of the
webppl compiler: the trampoline driver loop `runTrampoline`, the `run`
entry point, the program concatenation helper `concatPrograms`, the AST
deep copy `copyAst`, the `compile` pipeline structure, and the `Optimize`
main loop of the inference layer.  The individual transform passes
(`naming`, `cps`, `store`, `optimize`, `varargs`, `trampoline`, `caching`,
`freevars`) live in modules that are not part of the sources being
verified; where a property depends on their behaviour they are modelled
from the specification, and each such definition says so in its doc
comment.
-/

namespace Webppl

/-- JavaScript values, to the extent that the driver code inspects them:
`undefined`, `null`, booleans, (integer) numbers, strings, function values
(identified by an opaque id) and nothing else is ever scrutinised. -/
inductive JsVal where
  | undefined
  | nullv
  | boolean (b : Bool)
  | number (n : Int)
  | str (s : String)
  | func (id : Nat)
  deriving DecidableEq, Repr

/-- JavaScript truthiness, as used by `while (t)`: `undefined`, `null`,
`false`, `0` and `''` are falsy; every function value is truthy. -/
def truthy : JsVal → Bool
  | .undefined => false
  | .nullv => false
  | .boolean b => b
  | .number n => decide (n ≠ 0)
  | .str s => decide (s ≠ "")
  | .func _ => true

/-- A runtime result as seen by the trampoline driver: either a thunk (a
zero-argument function which, when invoked, yields the next result) or a
plain value.  A `Tramp` describes one terminating chain of thunks; the
constructor `thunk next` is the function value that returns `next` when
called. -/
inductive Tramp where
  | thunk (next : Tramp)
  | value (v : JsVal)
  deriving DecidableEq, Repr

/-- Errors the driver code can raise at runtime. `typeError` is the
JavaScript `TypeError` raised by invoking a non-function value. -/
inductive JsError where
  | typeError
  deriving DecidableEq, Repr

/-- JS truthiness of a trampoline result: a thunk is a function value and
hence truthy; a plain value is tested with `truthy`. -/
def truthyT : Tramp → Bool
  | .thunk _ => true
  | .value v => truthy v

/-- `runTrampoline` from src/main.js:210-214:
`function runTrampoline(t) { while (t) { t = t(); } }`.
The loop tests JS truthiness of `t`.  A thunk is a function value, hence
truthy, so the loop body runs and `t()` yields the next result.  A plain
value enters the loop body iff it is truthy, and then `t()` raises a
`TypeError` because a non-function is being invoked.  When `t` is falsy
the loop exits and the function returns `undefined` — `runTrampoline` has
no `return` statement, so the final value itself is never returned. -/
def runTrampoline : Tramp → Except JsError JsVal
  | .thunk next => runTrampoline next
  | .value v => if truthy v then .error .typeError else .ok .undefined

/-- The plain value a thunk chain ends in. -/
def finalValue : Tramp → JsVal
  | .thunk next => finalValue next
  | .value v => v

/-- Number of loop iterations `runTrampoline` performs before the chain's
final value is reached. -/
def iterations : Tramp → Nat
  | .thunk next => iterations next + 1
  | .value _ => 0

/-- Modelled from the spec: peak native call-stack depth consumed by the
`while (t) { t = t(); }` loop, on top of `runTrampoline`'s own frame.
The trampoline pass (src/transforms/trampoline.js, not among the sources)
guarantees that each thunk, when invoked, only constructs and returns the
next result without nesting further compiled calls; so each loop iteration
performs exactly one native call `t()`, whose frame is released before the
next iteration begins.  The peak depth is therefore `1` for any non-empty
chain and `0` when the loop body never runs. -/
def peakNativeStack : Tramp → Nat
  | .thunk next => max 1 (peakNativeStack next)
  | .value _ => 0

/-- The thunk chain produced by a countdown function recursing to depth
`n`: `n` tail calls, each deferred as a thunk, ending in the falsy value
`undefined` handed to the final continuation. -/
def countdownChain : Nat → Tramp
  | 0 => .value .undefined
  | n + 1 => .thunk (countdownChain n)

/-- An esprima `Program` node, as far as `concatPrograms` looks at it: its
`body`, a list of statement nodes.  Statements are opaque to the driver,
so their type is a parameter. -/
structure Program (σ : Type) where
  body : List σ
  deriving DecidableEq, Repr

/-- `esprima.parse('')`: the program with empty body, used as the fold
seed in `concatPrograms`. -/
def emptyProgram {σ : Type} : Program σ := ⟨[]⟩

/-- `concatPrograms` from src/main.js:46-53: folds the binary
concatenation `build.program(p0.body.concat(p1.body))` over the list,
starting from the empty program. -/
def concatPrograms {σ : Type} (programs : List (Program σ)) : Program σ :=
  programs.foldl (fun p0 p1 => ⟨p0.body ++ p1.body⟩) emptyProgram

theorem concatPrograms_body_aux {σ : Type} :
    ∀ (ps : List (Program σ)) (p : Program σ),
      (ps.foldl (fun p0 p1 => (⟨p0.body ++ p1.body⟩ : Program σ)) p).body
        = p.body ++ (ps.map Program.body).flatten := by
  intro ps
  induction ps with
  | nil => intro p; simp
  | cons q qs ih =>
      intro p
      simp only [List.foldl_cons, List.map_cons, List.flatten]
      rw [ih]
      simp [List.append_assoc]

/-! ## The `run` entry point (src/main.js:192-202) -/

/-- A JavaScript object, as used for the initial store literal `{}`. -/
abbrev StoreObj := List (String × JsVal)

/-- The initial store: the object literal `{}` that `run` passes as the
first argument of the compiled program. -/
def emptyStore : StoreObj := []

/-- A continuation function value, identified opaquely; `run` never
inspects the continuation it is given, it only passes it on. -/
abbrev Cont := Nat

/-- The source map `escodegen.generate` produced alongside the code
(`codeAndMap.map`); opaque to `run`, which only hands it to
`printFriendlyStackTrace`. -/
abbrev SourceMap := String

/-- A runtime failure raised while executing compiled code: a thrown
JavaScript value. -/
inductive RuntimeErr where
  | thrown (payload : JsVal)
  deriving DecidableEq, Repr

/-- What `run` did, observably: either the invocation completed without an
exception, or the exception was caught by the `try`/`catch` in `run` and
handed to `printFriendlyStackTrace(exception, codeAndMap.map)` together
with the source map. -/
inductive RunEffect where
  | completed
  | reportedError (e : RuntimeErr) (map : SourceMap)
  deriving DecidableEq, Repr

/-- `run` from src/main.js:192-202, after compilation: the compiled
program is a function which `run` invokes as
`eval.call(global, codeAndMap.code)({}, k, '')` — first the empty initial
store, then the supplied continuation, then the empty-string initial
address.  The invocation sits in a `try` block; an exception is caught and
reported with the source map.  The result of the invocation is discarded,
and `run`'s inner function has no `return` statement, so `run` evaluates
to `undefined` in every case.  The pair returned here is (the observable
effect, the value `run` returns). -/
def run (program : StoreObj → Cont → String → Except RuntimeErr JsVal)
    (k : Cont) (map : SourceMap) : RunEffect × JsVal :=
  match program emptyStore k "" with
  | .ok _ => (.completed, .undefined)
  | .error e => (.reportedError e map, .undefined)

/-! ## The `compile` pipeline (src/main.js:133-177)

The transform passes themselves live in src/transforms/, outside the
sources being verified.  To reason about the order in which `compile`
applies them, each pass is modelled as appending its label to a trace
carried on the AST; the composition structure below — which pass runs,
under which condition, and in which order — is taken from `compile`
itself. -/

/-- Labels for the transform passes `compile` composes. -/
inductive Pass where
  | thunkify
  | naming
  | cps
  | store
  | optimize
  | varargs
  | trampoline
  | caching
  | freevars
  deriving DecidableEq, Repr

/-- A compilation unit, as far as the `compile` driver inspects it: the
two caching-related properties of the program text, plus the trace of the
passes that have been applied to it (the instrumentation standing in for
the rewritten tree itself). -/
structure UAst where
  noCachingDirective : Bool
  requestsCaching : Bool
  trace : List Pass
  deriving DecidableEq, Repr

namespace Pipeline

/-- Modelled from the spec: `caching.hasNoCachingDirective` (the caching
module is not among the sources) — whether the unit carries the directive
that disables the caching transform for it. -/
def hasNoCachingDirective (a : UAst) : Bool := a.noCachingDirective

/-- Modelled from the spec: `caching.transformRequired` (the caching
module is not among the sources) — whether this unit opts in to /
requests the caching transform. -/
def transformRequired (a : UAst) : Bool := a.requestsCaching

/-- Modelled from the spec: `caching.transform` rewrites the unit,
wrapping eligible call sites with address-keyed memoization; recorded here
as the `caching` label on the unit's trace. -/
def cachingTransform (a : UAst) : UAst :=
  { a with trace := a.trace ++ [Pass.caching] }

/-- A transform pass applied to the (already concatenated) program,
modelled as appending its label to the trace. -/
def applyPass (p : Pass) (a : UAst) : UAst :=
  { a with trace := a.trace ++ [p] }

/-- Modelled from the spec: the `thunkify` syntax transform. -/
def thunkify : UAst → UAst := applyPass .thunkify

/-- Modelled from the spec: the naming/addressing pass. -/
def naming : UAst → UAst := applyPass .naming

/-- Modelled from the spec: the continuation-passing-style pass. -/
def cps : UAst → UAst := applyPass .cps

/-- Modelled from the spec: the store-threading pass. -/
def store : UAst → UAst := applyPass .store

/-- Modelled from the spec: the peephole/optimize pass (its semantics is
studied separately below; here only its position in the pipeline
matters). -/
def optimize : UAst → UAst := applyPass .optimize

/-- Modelled from the spec: the varargs normalization pass. -/
def varargs : UAst → UAst := applyPass .varargs

/-- Modelled from the spec: the trampoline pass. -/
def trampoline : UAst → UAst := applyPass .trampoline

/-- Modelled from the spec: the free-variable analysis the caching
transform requires. -/
def freevars : UAst → UAst := applyPass .freevars

/-- `util.pipeline`: left-to-right composition of a list of functions,
applied by folding over the list. -/
def pipeline {α : Type} (fns : List (α → α)) : α → α :=
  fun x => fns.foldl (fun acc f => f acc) x

/-- The default transform list of `compile`, src/main.js:152-160:
`[thunkify, naming, cps, store, optimize, varargs, trampoline]`. -/
def transforms : List (UAst → UAst) :=
  [thunkify, naming, cps, store, optimize, varargs, trampoline]

/-- `applyCaching` from src/main.js:133-137: each unit is left alone when
it carries the no-caching directive and caching-transformed otherwise. -/
def applyCaching (asts : List UAst) : List UAst :=
  asts.map fun ast =>
    if hasNoCachingDirective ast then ast else cachingTransform ast

/-- The first stage of `compile`'s pipeline, src/main.js:166 and 173:
`doCaching = _.any(asts, caching.transformRequired)` gates
`doCaching ? applyCaching : _.identity`. -/
def compileStage1 (asts : List UAst) : List UAst :=
  if asts.any transformRequired then applyCaching asts else asts

/-- `concatPrograms` on compilation units: bodies are concatenated, so
the resulting unit's source-text properties and applied-pass traces
combine; the fold starts from the empty program, exactly as in
src/main.js:46-53. -/
def concatUnits (asts : List UAst) : UAst :=
  asts.foldl
    (fun p0 p1 =>
      ⟨p0.noCachingDirective || p1.noCachingDirective,
        p0.requestsCaching || p1.requestsCaching,
        p0.trace ++ p1.trace⟩)
    ⟨false, false, []⟩

/-- `compile`'s transformation of the ast list, src/main.js:162-177:
```
util.pipeline([
  doCaching ? applyCaching : _.identity,
  concatPrograms,
  doCaching ? freevars : _.identity,
  util.pipeline(transforms)
])(asts)
```
with `doCaching = _.any(asts, caching.transformRequired)`. -/
def compileTransformed (asts : List UAst) : UAst :=
  let doCaching := asts.any transformRequired
  pipeline transforms
    ((if doCaching then freevars else id)
      (concatUnits (compileStage1 asts)))

end Pipeline

/-! ## `copyAst` (src/main.js:139-145)

`compile` maps `copyAst` over the cached package ASTs before handing them
to the pipeline, so each compilation works on a fresh tree.  An esprima
AST value is a tree of objects, arrays and primitives; the three mutally
recursive types below are that shape. -/

mutual
/-- A JSON-like AST value: a primitive, an array, or an object. -/
inductive JAst where
  | prim (v : JsVal)
  | arr (items : JList)
  | obj (fields : JFields)

/-- The items of an array node. -/
inductive JList where
  | nil
  | cons (hd : JAst) (tl : JList)

/-- The keyed fields of an object node. -/
inductive JFields where
  | nil
  | cons (key : String) (val : JAst) (tl : JFields)
end

/-- `_.isObject`: arrays and objects are objects, primitives are not. -/
def isCollection : JAst → Bool
  | .prim _ => false
  | .arr _ => true
  | .obj _ => true

mutual
/-- `copyAst` from src/main.js:139-145:
```
var ret = _.isArray(ast) ? [] : {};
_.each(ast, function(val, key) {
  ret[key] = _.isObject(val) ? copyAst(val) : val;
});
return ret;
```
On an array it rebuilds the item list, on an object the field list; each
stored value is recursively copied when it is itself an object/array and
stored as-is when it is a primitive.  On a primitive input `_.isArray` is
false and `_.each` iterates nothing, so the result is the empty object —
`compile` only ever applies `copyAst` to program nodes, which are
objects. -/
def copyAst : JAst → JAst
  | .prim _ => .obj .nil
  | .arr items => .arr (copyItems items)
  | .obj fields => .obj (copyFields fields)

/-- The `_.each` loop of `copyAst` over an array's items. -/
def copyItems : JList → JList
  | .nil => .nil
  | .cons (.prim v) tl => .cons (.prim v) (copyItems tl)
  | .cons hd tl => .cons (copyAst hd) (copyItems tl)

/-- The `_.each` loop of `copyAst` over an object's fields. -/
def copyFields : JFields → JFields
  | .nil => .nil
  | .cons k (.prim v) tl => .cons k (.prim v) (copyFields tl)
  | .cons k v tl => .cons k (copyAst v) (copyFields tl)
end

/-- Bundled structural-identity property of `copyAst`, proved for all
three mutual types at once by strong induction on size: on any
object/array node the copy is structurally identical to the input. -/
theorem copyAst_bundle : ∀ n : Nat,
    (∀ a : JAst, sizeOf a ≤ n → isCollection a = true → copyAst a = a)
    ∧ (∀ l : JList, sizeOf l ≤ n → copyItems l = l)
    ∧ (∀ f : JFields, sizeOf f ≤ n → copyFields f = f) := by
  intro n
  induction n with
  | zero =>
      refine ⟨?_, ?_, ?_⟩
      · intro a ha _
        exfalso; cases a <;> simp_all
      · intro l hl
        cases l with
        | nil => rfl
        | cons hd tl => exfalso; simp_all
      · intro f hf
        cases f with
        | nil => rfl
        | cons k v tl => exfalso; simp_all
  | succ n ih =>
      obtain ⟨ihA, ihL, ihF⟩ := ih
      refine ⟨?_, ?_, ?_⟩
      · intro a ha _
        cases a with
        | prim v => simp_all [isCollection]
        | arr items =>
            have : sizeOf items ≤ n := by simp_all; omega
            simp [copyAst, ihL items this]
        | obj fields =>
            have : sizeOf fields ≤ n := by simp_all; omega
            simp [copyAst, ihF fields this]
      · intro l hl
        cases l with
        | nil => rfl
        | cons hd tl =>
            have htl : sizeOf tl ≤ n := by
              cases hd <;> simp_all <;> omega
            cases hd with
            | prim v => simp [copyItems, ihL tl htl]
            | arr items =>
                have hhd : sizeOf (JAst.arr items) ≤ n := by simp_all; omega
                simp [copyItems, ihL tl htl, ihA _ hhd rfl]
            | obj fields =>
                have hhd : sizeOf (JAst.obj fields) ≤ n := by simp_all; omega
                simp [copyItems, ihL tl htl, ihA _ hhd rfl]
      · intro f hf
        cases f with
        | nil => rfl
        | cons k v tl =>
            have htl : sizeOf tl ≤ n := by
              cases v <;> simp_all <;> omega
            cases v with
            | prim w => simp [copyFields, ihF tl htl]
            | arr items =>
                have hv : sizeOf (JAst.arr items) ≤ n := by simp_all; omega
                simp [copyFields, ihF tl htl, ihA _ hv rfl]
            | obj fields =>
                have hv : sizeOf (JAst.obj fields) ≤ n := by simp_all; omega
                simp [copyFields, ihF tl htl, ihA _ hv rfl]

/-! ## `Optimize` (src/inference/optimize.js)

`Optimize(s, k, a, wpplFn, options)` runs `paramObj =
paramStruct.deepCopy(options.params)` once, then a `util.cpsLoop` of
`options.steps` iterations; iteration `i` obtains a gradient estimate for
the current `paramObj` and calls `optimizer(gradObj, paramObj, i)`, which
updates `paramObj` in place; the loop continuation finally delivers
`k(s, paramObj)`.  Mutation is the point of the claim under study, so
JavaScript objects are modelled with an explicit heap of cells addressed
by `Nat` references: `options.params` is a reference into the heap, and
the in-place updates of `paramObj` are writes to its cell. -/

/-- The contents of a parameter object: named parameter values (their
numeric payload is opaque to `Optimize`'s control flow). -/
abbrev ParamVal := List (String × Int)

/-- A heap of JavaScript objects: cell contents plus the next fresh
reference. -/
structure ObjHeap where
  mem : Nat → ParamVal
  next : Nat

namespace Inference

/-- In-place mutation of the object behind reference `r`. -/
def writeCell (h : ObjHeap) (r : Nat) (v : ParamVal) : ObjHeap :=
  ⟨fun n => if n = r then v else h.mem n, h.next⟩

/-- Modelled from the spec: `paramStruct.deepCopy` (src/paramStruct.js is
not among the sources) — allocates a fresh object whose contents equal
the contents of the object behind `r`, and returns the new reference. -/
def deepCopy (h : ObjHeap) (r : Nat) : ObjHeap × Nat :=
  (⟨fun n => if n = h.next then h.mem r else h.mem n, h.next + 1⟩, h.next)

/-- One iteration `i` of `Optimize`'s main loop, src/inference/
optimize.js:104-143: the estimator reads the current contents of
`paramObj` and produces a gradient, and `optimizer(gradObj, paramObj, i)`
updates `paramObj` in place.  The composite numeric update (estimator
followed by the adnn optimizer step, both outside the sources) is the
abstract `stepf`. -/
def optIter (stepf : Nat → ParamVal → ParamVal) (r : Nat)
    (h : ObjHeap) (i : Nat) : ObjHeap :=
  writeCell h r (stepf i (h.mem r))

/-- The heap-level behaviour of `Optimize`, src/inference/optimize.js:
30-159: deep-copy `options.params` into `paramObj`, run `options.steps`
loop iterations mutating `paramObj`, and deliver `paramObj`'s reference to
the continuation `k`.  Returns the final heap together with the delivered
reference. -/
def Optimize (stepf : Nat → ParamVal → ParamVal) (steps : Nat)
    (h : ObjHeap) (paramsRef : Nat) : ObjHeap × Nat :=
  let copied := deepCopy h paramsRef
  ((List.range steps).foldl (optIter stepf copied.2) copied.1, copied.2)

/-- Writes to a cell other than `n` leave `n`'s contents alone, across any
number of loop iterations. -/
theorem optLoop_frame (stepf : Nat → ParamVal → ParamVal) (r n : Nat)
    (hne : n ≠ r) :
    ∀ (l : List Nat) (h : ObjHeap),
      ((l.foldl (optIter stepf r) h).mem n) = h.mem n := by
  intro l
  induction l with
  | nil => intro h; rfl
  | cons i is ih =>
      intro h
      simp only [List.foldl_cons]
      rw [ih]
      simp [optIter, writeCell, hne]

end Inference

/-! ## The peephole/optimize pass as administrative-redex elimination

src/transforms/optimize.js is not among the sources; per the spec (§4.5)
the pass eliminates the continuation indirection that mechanical CPS
conversion introduces: an immediately-invoked function literal used purely
as a continuation wrapper is inlined.  The model below is a CPS-shaped
intermediate language in which exactly that redex is representable, the
`optimize` pass that contracts it, and a semantics observing both the
final value and the trace of side effects. -/

namespace Adm

/-- An atomic argument of a CPS-converted program: an integer literal or a
de Bruijn reference to an enclosing binding. -/
inductive Atom where
  | lit (n : Int)
  | var (i : Nat)
  deriving DecidableEq, Repr

/-- Host primitive operators surviving the rewrites unchanged. -/
inductive POp where
  | add
  | sub
  | mul
  deriving DecidableEq, Repr

def POp.apply : POp → Int → Int → Int
  | .add, x, y => x + y
  | .sub, x, y => x - y
  | .mul, x, y => x * y

/-- A CPS-converted program body.  `halt a` invokes the top continuation
with `a`; `prim op x y b` computes `op x y`, binds the result (index 0 in
`b`) and continues; `out x b` performs an observable side effect emitting
`x` and continues; `adm a b` is the administrative redex
`(function (v) { b })(a)` — an immediately-invoked function literal used
purely as a continuation wrapper, binding index 0 in `b`. -/
inductive CExp where
  | halt (a : Atom)
  | prim (op : POp) (x y : Atom) (body : CExp)
  | out (x : Atom) (body : CExp)
  | adm (a : Atom) (body : CExp)
  deriving DecidableEq, Repr

/-- Value of an atom in an environment (innermost binding first). -/
def Atom.val (env : List Int) : Atom → Option Int
  | .lit n => some n
  | .var i => env[i]?

/-- Evaluation: returns the emitted side-effect trace, in order, and the
final value; `none` on a scoping error. -/
def evalC : CExp → List Int → Option (List Int × Int)
  | .halt a, env =>
      match a.val env with
      | some v => some ([], v)
      | none => none
  | .prim op x y b, env =>
      match x.val env, y.val env with
      | some xv, some yv => evalC b (op.apply xv yv :: env)
      | _, _ => none
  | .out x b, env =>
      match x.val env, evalC b env with
      | some xv, some (tr, r) => some (xv :: tr, r)
      | _, _ => none
  | .adm a b, env =>
      match a.val env with
      | some av => evalC b (av :: env)
      | none => none

/-- Shift an atom's references by `d`, for moving it under `d` binders. -/
def shiftAtom (d : Nat) : Atom → Atom
  | .lit n => .lit n
  | .var i => .var (i + d)

/-- Substitute `a` for reference `d` in an atom, renumbering the
references above `d`. -/
def substAtom (d : Nat) (a : Atom) : Atom → Atom
  | .lit n => .lit n
  | .var i => if i < d then .var i else if i = d then shiftAtom d a else .var (i - 1)

/-- Capture-avoiding substitution of atom `a` for reference `d`. -/
def substExp (d : Nat) (a : Atom) : CExp → CExp
  | .halt x => .halt (substAtom d a x)
  | .prim op x y b => .prim op (substAtom d a x) (substAtom d a y) (substExp (d + 1) a b)
  | .out x b => .out (substAtom d a x) (substExp d a b)
  | .adm x b => .adm (substAtom d a x) (substExp (d + 1) a b)

/-- Number of expression constructors; substitution preserves it. -/
def csize : CExp → Nat
  | .halt _ => 1
  | .prim _ _ _ b => csize b + 1
  | .out _ b => csize b + 1
  | .adm _ b => csize b + 1

theorem csize_substExp (a : Atom) :
    ∀ (e : CExp) (d : Nat), csize (substExp d a e) = csize e := by
  intro e
  induction e with
  | halt x => intro d; rfl
  | prim op x y b ih => intro d; simp [substExp, csize, ih]
  | out x b ih => intro d; simp [substExp, csize, ih]
  | adm x b ih => intro d; simp [substExp, csize, ih]

/-- Modelled from the spec: the peephole/optimize pass — contract every
administrative redex by inlining the immediately-invoked continuation
wrapper, i.e. β-reduce `adm a b` to `b[0 := a]`, and leave every other
construct in place. -/
def optimize : CExp → CExp
  | .halt a => .halt a
  | .prim op x y b => .prim op x y (optimize b)
  | .out x b => .out x (optimize b)
  | .adm a b => optimize (substExp 0 a b)
termination_by e => csize e
decreasing_by
  all_goals simp [csize, csize_substExp]

/-- Well-scopedness of an atom under `n` bindings. -/
def AtomOk (n : Nat) : Atom → Bool
  | .lit _ => true
  | .var i => decide (i < n)

/-- Well-scopedness of a program body under `n` bindings — the static
invariant the earlier passes guarantee for their output. -/
def ExpOk (n : Nat) : CExp → Bool
  | .halt a => AtomOk n a
  | .prim _ x y b => AtomOk n x && AtomOk n y && ExpOk (n + 1) b
  | .out x b => AtomOk n x && ExpOk n b
  | .adm a b => AtomOk n a && ExpOk (n + 1) b

theorem AtomOk_val (env : List Int) (x : Atom) (hx : AtomOk env.length x = true) :
    ∃ v, x.val env = some v := by
  cases x with
  | lit n => exact ⟨n, rfl⟩
  | var i =>
      simp only [AtomOk, decide_eq_true_eq] at hx
      exact ⟨env[i], by simp [Atom.val, List.getElem?_eq_getElem hx]⟩

theorem substAtom_val (a : Atom) (pre env : List Int) (av : Int)
    (ha : a.val env = some av) (x : Atom) :
    (substAtom pre.length a x).val (pre ++ env) = x.val (pre ++ av :: env) := by
  cases x with
  | lit n => rfl
  | var i =>
      by_cases h1 : i < pre.length
      · simp only [substAtom, if_pos h1, Atom.val]
        rw [List.getElem?_append_left h1, List.getElem?_append_left h1]
      · by_cases h2 : i = pre.length
        · subst h2
          have hsub : substAtom pre.length a (Atom.var pre.length)
              = shiftAtom pre.length a := by
            simp [substAtom]
          rw [hsub]
          cases a with
          | lit n =>
              simp only [Atom.val] at ha
              simp only [shiftAtom, Atom.val]
              rw [List.getElem?_append_right (Nat.le_refl _)]
              simp only [Nat.sub_self, List.getElem?_cons_zero]
              exact ha
          | var j =>
              simp only [Atom.val] at ha
              simp only [shiftAtom, Atom.val]
              rw [List.getElem?_append_right (Nat.le_add_left _ _),
                List.getElem?_append_right (Nat.le_refl _)]
              simp only [Nat.add_sub_cancel, Nat.sub_self, List.getElem?_cons_zero]
              exact ha
        · simp only [substAtom, if_neg h1, if_neg h2, Atom.val]
          rw [List.getElem?_append_right (by omega : pre.length ≤ i - 1),
            List.getElem?_append_right (by omega : pre.length ≤ i)]
          have h3 : i - pre.length = (i - 1 - pre.length) + 1 := by omega
          rw [h3]
          simp

theorem substExp_eval (a : Atom) (env : List Int) (av : Int)
    (ha : a.val env = some av) :
    ∀ (e : CExp) (pre : List Int),
      evalC (substExp pre.length a e) (pre ++ env) = evalC e (pre ++ av :: env) := by
  intro e
  induction e with
  | halt x =>
      intro pre
      simp only [substExp, evalC, substAtom_val a pre env av ha]
  | prim op x y b ih =>
      intro pre
      simp only [substExp, evalC, substAtom_val a pre env av ha]
      cases hx : Atom.val (pre ++ av :: env) x with
      | none => rfl
      | some xv =>
          cases hy : Atom.val (pre ++ av :: env) y with
          | none => rfl
          | some yv => exact ih (POp.apply op xv yv :: pre)
  | out x b ih =>
      intro pre
      simp only [substExp, evalC, substAtom_val a pre env av ha, ih pre]
  | adm x b ih =>
      intro pre
      simp only [substExp, evalC, substAtom_val a pre env av ha]
      cases hx : Atom.val (pre ++ av :: env) x with
      | none => rfl
      | some xv => exact ih (xv :: pre)

theorem substAtom_ok (a : Atom) (n : Nat) (ha : AtomOk n a = true) :
    ∀ (x : Atom) (d : Nat),
      AtomOk (n + d + 1) x = true → AtomOk (n + d) (substAtom d a x) = true := by
  intro x d hx
  cases x with
  | lit m => rfl
  | var i =>
      simp only [AtomOk, decide_eq_true_eq] at hx
      by_cases h1 : i < d
      · simp only [substAtom, if_pos h1, AtomOk, decide_eq_true_eq]
        omega
      · by_cases h2 : i = d
        · simp only [substAtom, if_neg h1, if_pos h2]
          cases a with
          | lit m => rfl
          | var j =>
              simp only [AtomOk, decide_eq_true_eq] at ha
              simp only [shiftAtom, AtomOk, decide_eq_true_eq]
              omega
        · simp only [substAtom, if_neg h1, if_neg h2, AtomOk, decide_eq_true_eq]
          omega

theorem substExp_ok (a : Atom) (n : Nat) (ha : AtomOk n a = true) :
    ∀ (e : CExp) (d : Nat),
      ExpOk (n + d + 1) e = true → ExpOk (n + d) (substExp d a e) = true := by
  intro e
  induction e with
  | halt x => intro d hx; exact substAtom_ok a n ha x d hx
  | prim op x y b ih =>
      intro d hx
      simp only [ExpOk, Bool.and_eq_true] at hx ⊢
      obtain ⟨⟨h1, h2⟩, h3⟩ := hx
      exact ⟨⟨substAtom_ok a n ha x d h1, substAtom_ok a n ha y d h2⟩,
        ih (d + 1) h3⟩
  | out x b ih =>
      intro d hx
      simp only [ExpOk, Bool.and_eq_true] at hx ⊢
      obtain ⟨h1, h2⟩ := hx
      exact ⟨substAtom_ok a n ha x d h1, ih d h2⟩
  | adm x b ih =>
      intro d hx
      simp only [ExpOk, Bool.and_eq_true] at hx ⊢
      obtain ⟨h1, h2⟩ := hx
      exact ⟨substAtom_ok a n ha x d h1, ih (d + 1) h2⟩

theorem csize_pos : ∀ e : CExp, 1 ≤ csize e := by
  intro e
  cases e <;> simp only [csize] <;> omega

theorem optimize_preserves_aux :
    ∀ (m : Nat) (e : CExp), csize e ≤ m →
      ∀ env : List Int, ExpOk env.length e = true →
        evalC (optimize e) env = evalC e env := by
  intro m
  induction m with
  | zero =>
      intro e he
      exact absurd he (by have := csize_pos e; omega)
  | succ m ih =>
      intro e he env hok
      cases e with
      | halt x => simp [optimize]
      | prim op x y b =>
          simp only [ExpOk, Bool.and_eq_true] at hok
          obtain ⟨⟨h1, h2⟩, h3⟩ := hok
          simp only [optimize, evalC]
          cases hx : Atom.val env x with
          | none => rfl
          | some xv =>
              cases hy : Atom.val env y with
              | none => rfl
              | some yv =>
                  exact ih b (by simp only [csize] at he; omega) _ h3
      | out x b =>
          simp only [ExpOk, Bool.and_eq_true] at hok
          obtain ⟨h1, h2⟩ := hok
          simp only [optimize, evalC]
          rw [ih b (by simp only [csize] at he; omega) env h2]
      | adm x b =>
          simp only [ExpOk, Bool.and_eq_true] at hok
          obtain ⟨h1, h2⟩ := hok
          obtain ⟨av, hav⟩ := AtomOk_val env x h1
          have hsub_ok : ExpOk env.length (substExp 0 x b) = true :=
            substExp_ok x env.length h1 b 0 h2
          have hs : csize (substExp 0 x b) ≤ m := by
            rw [csize_substExp]
            simp only [csize] at he
            omega
          have h4 : evalC (optimize (substExp 0 x b)) env
              = evalC (substExp 0 x b) env := ih _ hs env hsub_ok
          have h5 : evalC (substExp 0 x b) env = evalC b (av :: env) := by
            have h6 := substExp_eval x env av hav b []
            simpa using h6
          simp only [optimize]
          rw [h4, h5]
          simp [evalC, hav]

end Adm

/-! ## Claim theorems -/

/-- Claim C1, counterexample: the spec's pass order — naming, cps, store,
varargs, optimize, trampoline, with caching as pass 7 after trampolining —
is not the order `compile` applies.  Restricted to those seven passes, the
trace of a compilation whose unit opts in to caching is
`[caching, naming, cps, store, optimize, varargs, trampoline]`: caching
runs first (before concatenation), and optimize runs before varargs. -/
theorem compile_pass_order_claim_counterexample :
    (Pipeline.compileTransformed [⟨false, true, []⟩]).trace.filter
        (fun p => decide (p ∈ [Pass.naming, Pass.cps, Pass.store, Pass.varargs,
          Pass.optimize, Pass.trampoline, Pass.caching]))
      ≠ [Pass.naming, Pass.cps, Pass.store, Pass.varargs,
          Pass.optimize, Pass.trampoline, Pass.caching] := by
  decide

/-- Claim C1, amended: `compile` transforms a compilation unit by, in
order, the caching transform (exactly when some unit requests caching and
this unit lacks the no-caching directive), program concatenation, the
free-variable analysis (exactly when caching is on), and then the
transform list thunkify, naming, cps, store, optimize, varargs,
trampoline — each pass consuming the output of the previous one. -/
theorem compile_pass_order (a : UAst) :
    (Pipeline.compileTransformed [a]).trace
      = a.trace
        ++ (if a.requestsCaching && !a.noCachingDirective
            then [Pass.caching] else [])
        ++ (if a.requestsCaching then [Pass.freevars] else [])
        ++ [Pass.thunkify, Pass.naming, Pass.cps, Pass.store,
            Pass.optimize, Pass.varargs, Pass.trampoline] := by
  obtain ⟨nc, rq, tr⟩ := a
  cases nc <;> cases rq <;>
    simp [Pipeline.compileTransformed, Pipeline.compileStage1,
      Pipeline.applyCaching, Pipeline.hasNoCachingDirective,
      Pipeline.transformRequired, Pipeline.cachingTransform,
      Pipeline.concatUnits, Pipeline.freevars, Pipeline.pipeline,
      Pipeline.transforms, Pipeline.thunkify, Pipeline.naming, Pipeline.cps,
      Pipeline.store, Pipeline.optimize, Pipeline.varargs,
      Pipeline.trampoline, Pipeline.applyPass]

/-- Claim C2, counterexample: handed the ordinary (non-thunk, truthy)
value `5`, the driver loop does not stop and return it — `while (t)`
enters the loop body because `5` is truthy, and invoking the non-function
`5` raises a TypeError. -/
theorem runTrampoline_value_counterexample :
    runTrampoline (Tramp.value (JsVal.number 5)) = Except.error JsError.typeError
    ∧ runTrampoline (Tramp.value (JsVal.number 5)) ≠ Except.ok (JsVal.number 5) := by
  refine ⟨rfl, ?_⟩
  intro hc
  exact Except.noConfusion
    ((show runTrampoline (Tramp.value (JsVal.number 5))
        = Except.error JsError.typeError from rfl) ▸ hc)

/-- Claim C2, amended: the driver loop repeatedly invokes the result while
it is truthy (every thunk is truthy, so thunks are always invoked); it
stops when the result is falsy and then returns `undefined`, not the
value; a truthy non-thunk result raises a TypeError instead of being
returned. -/
theorem runTrampoline_loop_behavior (t : Tramp) :
    runTrampoline t
      = if truthy (finalValue t) then Except.error JsError.typeError
        else Except.ok JsVal.undefined := by
  induction t with
  | thunk next ih => simpa [runTrampoline, finalValue] using ih
  | value v => simp [runTrampoline, finalValue]

theorem peakNativeStack_le_one : ∀ t : Tramp, peakNativeStack t ≤ 1 := by
  intro t
  induction t with
  | thunk next ih => simp only [peakNativeStack]; omega
  | value v => simp [peakNativeStack]

theorem peakNativeStack_countdown :
    ∀ n : Nat, peakNativeStack (countdownChain (n + 1)) = 1 := by
  intro n
  induction n with
  | zero => rfl
  | succ k ih =>
      have hstep : peakNativeStack (countdownChain (k + 1 + 1))
          = max 1 (peakNativeStack (countdownChain (k + 1))) := rfl
      rw [hstep, ih]
      simp

theorem runTrampoline_countdown :
    ∀ n : Nat, runTrampoline (countdownChain n) = Except.ok JsVal.undefined := by
  intro n
  induction n with
  | zero => rfl
  | succ k ih => simpa [countdownChain, runTrampoline] using ih

/-- Claim C3: in the cost model of the trampolined driver loop, the native
call-stack depth needed beyond the loop's own frame is bounded by the
constant 1 for every thunk chain, regardless of its length; a countdown
recursion of depth 10^6 runs to completion through the driver loop, at the
same peak native stack depth as a recursion of depth 10^3. -/
theorem runTrampoline_stack_bounded :
    (∀ t : Tramp, peakNativeStack t ≤ 1)
    ∧ peakNativeStack (countdownChain (10 ^ 6))
      = peakNativeStack (countdownChain (10 ^ 3))
    ∧ runTrampoline (countdownChain (10 ^ 6)) = Except.ok JsVal.undefined := by
  refine ⟨peakNativeStack_le_one, ?_, runTrampoline_countdown _⟩
  have h6 : (10 : Nat) ^ 6 = 999999 + 1 := by norm_num
  have h3 : (10 : Nat) ^ 3 = 999 + 1 := by norm_num
  rw [h6, h3, peakNativeStack_countdown, peakNativeStack_countdown]

/-- Claim C4, counterexample: in a compilation of two units where only the
first opts in (`transformRequired`), the second unit — which does not
request caching and carries no directive — is caching-transformed anyway
by `compile`'s first stage. -/
theorem applyCaching_non_optin_counterexample :
    Pipeline.transformRequired ⟨false, false, []⟩ = false
    ∧ Pipeline.compileStage1 [⟨false, true, []⟩, ⟨false, false, []⟩]
      = [⟨false, true, [Pass.caching]⟩, ⟨false, false, [Pass.caching]⟩] := by
  decide

/-- Claim C4, amended: during compilation a unit is caching-transformed
iff some unit of the compilation requests caching and the unit itself does
not carry the no-caching directive; in particular a unit that does not
request caching is still transformed whenever another unit requests it,
unless it opts out via the directive. -/
theorem compileStage1_caching_condition (asts : List UAst) :
    Pipeline.compileStage1 asts
      = asts.map (fun a =>
          if asts.any Pipeline.transformRequired
              && !Pipeline.hasNoCachingDirective a
          then Pipeline.cachingTransform a else a) := by
  unfold Pipeline.compileStage1
  cases h : asts.any Pipeline.transformRequired with
  | false => simp
  | true =>
      simp only [Pipeline.applyCaching, Bool.true_and, if_true]
      have hfun : (fun a : UAst =>
          if Pipeline.hasNoCachingDirective a then a
          else Pipeline.cachingTransform a)
          = fun a : UAst =>
            if !Pipeline.hasNoCachingDirective a
            then Pipeline.cachingTransform a else a := by
        funext a
        cases h2 : Pipeline.hasNoCachingDirective a <;> simp [h2]
      rw [hfun]

/-- Claim C5: the peephole/optimize pass is purely an optimization — on
every well-scoped program body, running the optimized form produces
exactly the same side-effect trace and final value as running the
unoptimized form, so removing the pass from the pipeline does not change
observable behavior. -/
theorem optimize_pure_optimization (e : Adm.CExp) (env : List Int)
    (h : Adm.ExpOk env.length e = true) :
    Adm.evalC (Adm.optimize e) env = Adm.evalC e env :=
  Adm.optimize_preserves_aux (Adm.csize e) e (Nat.le_refl _) env h

/-- Witness for C5: a concrete administrative redex wrapping an addition
and an observable output; the optimized and unoptimized forms agree. -/
theorem optimize_pure_optimization_witness :
    Adm.ExpOk (List.length ([] : List Int))
        (Adm.CExp.adm (Adm.Atom.lit 2)
          (Adm.CExp.prim Adm.POp.add (Adm.Atom.var 0) (Adm.Atom.lit 3)
            (Adm.CExp.out (Adm.Atom.var 0)
              (Adm.CExp.halt (Adm.Atom.var 0))))) = true
    ∧ Adm.evalC (Adm.optimize
          (Adm.CExp.adm (Adm.Atom.lit 2)
            (Adm.CExp.prim Adm.POp.add (Adm.Atom.var 0) (Adm.Atom.lit 3)
              (Adm.CExp.out (Adm.Atom.var 0)
                (Adm.CExp.halt (Adm.Atom.var 0)))))) []
      = Adm.evalC
          (Adm.CExp.adm (Adm.Atom.lit 2)
            (Adm.CExp.prim Adm.POp.add (Adm.Atom.var 0) (Adm.Atom.lit 3)
              (Adm.CExp.out (Adm.Atom.var 0)
                (Adm.CExp.halt (Adm.Atom.var 0))))) [] :=
  ⟨by decide, optimize_pure_optimization _ [] (by decide)⟩

/-- Claim C6, counterexample: `run` does not return the resulting value:
for a compiled program whose invocation produces the value `5`, `run`
evaluates to `undefined` — the result of the invocation is discarded. -/
theorem run_returns_value_counterexample :
    (run (fun _ _ _ => Except.ok (JsVal.number 5)) 0 "map").2 ≠ JsVal.number 5
    ∧ (run (fun _ _ _ => Except.ok (JsVal.number 5)) 0 "map").2 = JsVal.undefined := by
  constructor
  · decide
  · rfl

/-- Claim C6, amended: `run` invokes the compiled program with the empty
initial store, the supplied continuation and the empty-string initial
address, in that fixed leading order — witnessed by a probe program that
reports the arguments it received — and `run` itself returns `undefined`
in every case; the resulting value is delivered through the continuation,
never returned. -/
theorem run_invocation_protocol (k : Cont) (map : SourceMap)
    (g : StoreObj → Cont → String → JsVal) :
    (∀ program, (run program k map).2 = JsVal.undefined)
    ∧ run (fun s c a => Except.error (RuntimeErr.thrown (g s c a))) k map
      = (RunEffect.reportedError (RuntimeErr.thrown (g emptyStore k "")) map,
          JsVal.undefined) := by
  constructor
  · intro program
    unfold run
    cases program emptyStore k "" <;> rfl
  · rfl

/-- Claim C7: an exception raised while executing compiled code propagates
to the single `try`/`catch` boundary inside `run`, where it is handed,
together with the source map, to the external reporting collaborator
`printFriendlyStackTrace` — it is neither swallowed nor resumed. -/
theorem run_reports_runtime_errors
    (program : StoreObj → Cont → String → Except RuntimeErr JsVal)
    (k : Cont) (map : SourceMap) (e : RuntimeErr)
    (h : program emptyStore k "" = Except.error e) :
    run program k map = (RunEffect.reportedError e map, JsVal.undefined) := by
  unfold run
  rw [h]

/-- Witness for C7: a program that throws the string `"boom"`; `run`
reports exactly that error with the source map. -/
theorem run_reports_runtime_errors_witness :
    ((fun (_ : StoreObj) (_ : Cont) (_ : String) =>
          (Except.error (RuntimeErr.thrown (JsVal.str "boom"))
            : Except RuntimeErr JsVal)) emptyStore 0 ""
        = Except.error (RuntimeErr.thrown (JsVal.str "boom")))
    ∧ run (fun (_ : StoreObj) (_ : Cont) (_ : String) =>
          (Except.error (RuntimeErr.thrown (JsVal.str "boom"))
            : Except RuntimeErr JsVal)) 0 "sm"
      = (RunEffect.reportedError (RuntimeErr.thrown (JsVal.str "boom")) "sm",
          JsVal.undefined) :=
  ⟨rfl, run_reports_runtime_errors _ 0 "sm" _ rfl⟩

/-- Claim C8: `copyAst`, which `compile` applies to every cached package
AST before handing the list to the pipeline, produces a tree structurally
identical to its input on every object or array node — so each pass works
on a fresh tree whose structure equals the original's. -/
theorem copyAst_structurally_identical (a : JAst) (h : isCollection a = true) :
    copyAst a = a :=
  (copyAst_bundle (sizeOf a)).1 a (Nat.le_refl _) h

/-- Witness for C8: a concrete two-field object node is copied to a
structurally identical tree. -/
theorem copyAst_structurally_identical_witness :
    isCollection (JAst.obj (JFields.cons "type" (JAst.prim (JsVal.str "Program"))
        (JFields.cons "body" (JAst.arr JList.nil) JFields.nil))) = true
    ∧ copyAst (JAst.obj (JFields.cons "type" (JAst.prim (JsVal.str "Program"))
        (JFields.cons "body" (JAst.arr JList.nil) JFields.nil)))
      = JAst.obj (JFields.cons "type" (JAst.prim (JsVal.str "Program"))
        (JFields.cons "body" (JAst.arr JList.nil) JFields.nil)) :=
  ⟨rfl, copyAst_structurally_identical _ rfl⟩

/-- Claim C9: `Optimize` never modifies the caller's `options.params`
object: it deep-copies it into `paramObj` and mutates only the copy, so
after any number of steps the object behind the caller's reference has its
original contents, and the parameters delivered to the continuation are a
distinct object. -/
theorem Optimize_params_not_modified (stepf : Nat → ParamVal → ParamVal)
    (steps : Nat) (h : ObjHeap) (paramsRef : Nat)
    (hvalid : paramsRef < h.next) :
    (Inference.Optimize stepf steps h paramsRef).1.mem paramsRef
      = h.mem paramsRef
    ∧ (Inference.Optimize stepf steps h paramsRef).2 ≠ paramsRef := by
  have hne : paramsRef ≠ h.next := by omega
  constructor
  · show ((List.range steps).foldl (Inference.optIter stepf h.next)
        (Inference.deepCopy h paramsRef).1).mem paramsRef = h.mem paramsRef
    rw [Inference.optLoop_frame stepf h.next paramsRef hne]
    simp [Inference.deepCopy, hne]
  · show h.next ≠ paramsRef
    omega

/-- Witness for C9: a one-object heap, two optimization steps; the
caller's object keeps its contents and the delivered reference is a
different object. -/
theorem Optimize_params_not_modified_witness :
    (0 : Nat) < (⟨fun _ => [("w", 3)], 1⟩ : ObjHeap).next
    ∧ ((Inference.Optimize (fun _ v => v) 2 ⟨fun _ => [("w", 3)], 1⟩ 0).1.mem 0
        = (⟨fun _ => [("w", 3)], 1⟩ : ObjHeap).mem 0
      ∧ (Inference.Optimize (fun _ v => v) 2 ⟨fun _ => [("w", 3)], 1⟩ 0).2 ≠ 0) :=
  ⟨by decide,
    Optimize_params_not_modified (fun _ v => v) 2 ⟨fun _ => [("w", 3)], 1⟩ 0
      (by decide)⟩

/-- Claim C10: `concatPrograms` returns a program whose body is the
concatenation of the input programs' bodies in list order; on the empty
list it returns the empty program, and it is a homomorphism from list
concatenation to program-body concatenation. -/
theorem concatPrograms_homomorphism {σ : Type} (ps qs : List (Program σ)) :
    (concatPrograms ps).body = (ps.map Program.body).flatten
    ∧ concatPrograms ([] : List (Program σ)) = emptyProgram
    ∧ (concatPrograms (ps ++ qs)).body
      = (concatPrograms ps).body ++ (concatPrograms qs).body := by
  have h1 := concatPrograms_body_aux (ps ++ qs) (emptyProgram (σ := σ))
  have h2 := concatPrograms_body_aux ps (emptyProgram (σ := σ))
  have h3 := concatPrograms_body_aux qs (emptyProgram (σ := σ))
  refine ⟨?_, rfl, ?_⟩
  · unfold concatPrograms
    rw [h2]
    simp [emptyProgram]
  · unfold concatPrograms
    rw [h1, h2, h3]
    simp [emptyProgram]

end Webppl
